import Mathlib

/-!
Verification development for the cooperative task scheduler of `uiexec.rs`:
a `Pool` owning the executing task sequence, a mutex-protected `Shared`
record (owning thread id plus FIFO pending queue), a `Spawner` holding a
weak reference to `Shared`, and a wake signal that posts `WM_NULL` to the
owning thread via `PostThreadMessageW`.

The embedding models a boxed future by its observable deterministic
behaviour: the result of its n-th poll, whether its n-th poll invokes the
waker handed to it, and which tasks its n-th poll spawns reentrantly from
the owning thread.  The `id` field of `Entry` is a ghost identifier for
the identity of the boxed future (its allocation), used only to state
properties; the scheduler itself never branches on it.  Effects performed
by `run_until_stalled` and `spawn` themselves — acquiring/releasing the
`Shared` lock, posting a wake, polling a future — are recorded in an event
trace.  (Lock operations performed by a reentrant `spawn` from inside a
poll are the spawner's own, not the pool's; the trace records the lock
operations of the modelled function itself.)
-/

namespace UiExec

/-- Result of one poll of a future: `core::task::Poll` specialised to
output `()` as in `uiexec.rs`. -/
inductive PollResult where
  | pending
  | ready
deriving DecidableEq

def PollResult.isReady : PollResult → Bool
  | .pending => false
  | .ready => true

/-- Observable effects of `run_until_stalled` and `spawn`: the pool/spawner
lock operations on `Shared`, wake posts (`PostThreadMessageW(tid, WM_NULL)`;
`src = some i` when the post comes from the waker invoked during the poll
of the future with ghost id `i`, `src = none` for the direct post performed
by `spawn`), and polls of futures. -/
inductive Event where
  | lockAcquire
  | lockRelease
  | wake (tid : Nat) (src : Option Nat)
  | poll (id : Nat) (r : PollResult)
deriving DecidableEq

/-- The `Entry` of `uiexec.rs`: a boxed future plus its `done` flag.  The
future's behaviour is modelled by three functions of the number of polls it
has received so far (`future` = the n-th poll's result, `calls_waker` =
whether the n-th poll invokes the waker, `spawns` = the tasks the n-th poll
spawns reentrantly); `polls` is the future's internal progress counter and
`id` a ghost identity for the boxed allocation. -/
inductive Entry where
  | mk (id : Nat) (future : Nat → PollResult) (calls_waker : Nat → Bool)
      (spawns : Nat → List Entry) (polls : Nat) (done : Bool)

def Entry.id : Entry → Nat
  | .mk i _ _ _ _ _ => i

def Entry.future : Entry → Nat → PollResult
  | .mk _ f _ _ _ _ => f

def Entry.calls_waker : Entry → Nat → Bool
  | .mk _ _ w _ _ _ => w

def Entry.spawns : Entry → Nat → List Entry
  | .mk _ _ _ s _ _ => s

def Entry.polls : Entry → Nat
  | .mk _ _ _ _ p _ => p

def Entry.done : Entry → Bool
  | .mk _ _ _ _ _ d => d

/-- The state change a poll applies to an entry: the future has been polled
once more, and `done` is set when the poll returned `Ready` (`e.done = true`
in the `Poll::Ready` arm, untouched in the `Poll::Pending` arm). -/
def Entry.advance : Entry → Bool → Entry
  | .mk i f w s p d, rdy => .mk i f w s (p + 1) (d || rdy)

@[simp] theorem Entry.id_mk (i f w s p d) : (Entry.mk i f w s p d).id = i := rfl
@[simp] theorem Entry.future_mk (i f w s p d) : (Entry.mk i f w s p d).future = f := rfl
@[simp] theorem Entry.calls_waker_mk (i f w s p d) : (Entry.mk i f w s p d).calls_waker = w := rfl
@[simp] theorem Entry.spawns_mk (i f w s p d) : (Entry.mk i f w s p d).spawns = s := rfl
@[simp] theorem Entry.polls_mk (i f w s p d) : (Entry.mk i f w s p d).polls = p := rfl
@[simp] theorem Entry.done_mk (i f w s p d) : (Entry.mk i f w s p d).done = d := rfl

@[simp] theorem Entry.id_advance (e : Entry) (b : Bool) : (e.advance b).id = e.id := by
  cases e; rfl

@[simp] theorem Entry.done_advance (e : Entry) (b : Bool) :
    (e.advance b).done = (e.done || b) := by
  cases e; rfl

@[simp] theorem Entry.polls_advance (e : Entry) (b : Bool) :
    (e.advance b).polls = e.polls + 1 := by
  cases e; rfl

/-- The mutex-protected `Shared` record: owning thread id and FIFO pending
queue. -/
structure Shared where
  thread_id : Nat
  pending : List Entry

/-- The `Pool`: the waker constructed in `Pool::new` (modelled by the thread
id it was bound to), the executing sequence, and the shared record. -/
structure Pool where
  waker_thread : Nat
  executing : List Entry
  shared : Shared

/-- Model of `Pool::new`, with the calling thread's id made explicit: empty executing
set, fresh `Shared` holding that id, waker bound to that id. -/
def Pool.new (tid : Nat) : Pool :=
  { waker_thread := tid, executing := [], shared := { thread_id := tid, pending := [] } }

/-- Result of polling one entry inside the loop of `run_until_stalled`. -/
structure PollRes where
  entry : Entry
  ready : Bool
  spawned : List Entry
  events : List Event

/-- One execution of the `match e.future.as_mut().poll(..)` body: the future
receives its `polls`-th poll; during the poll it performs its reentrant
spawns (each posting a wake to the owning thread) and possibly invokes the
waker (posting a wake attributed to this entry), then the poll event itself
is recorded with its result.  `Ready` marks the entry done and reports
progress (`any = true`). -/
def pollEntry (tid : Nat) (e : Entry) : PollRes :=
  let r := e.future e.polls
  let sp := e.spawns e.polls
  { entry := e.advance r.isReady
    ready := r.isReady
    spawned := sp
    events := sp.map (fun _ => Event.wake tid none)
      ++ (if e.calls_waker e.polls then [Event.wake tid (some e.id)] else [])
      ++ [Event.poll e.id r] }

/-- Result of one full pass of the `for e in self.executing.iter_mut()`
loop. -/
structure PassRes where
  entries : List Entry
  any : Bool
  spawned : List Entry
  events : List Event

/-- One full pass: every entry of the executing sequence is polled exactly
once, in order; `any` records whether some poll returned `Ready`; the
reentrant spawns are collected in submission order (they go to the pending
queue of `Shared`, which the pool does not re-read). -/
def runPass (tid : Nat) : List Entry → PassRes
  | [] => { entries := [], any := false, spawned := [], events := [] }
  | e :: es =>
    let p := pollEntry tid e
    let rest := runPass tid es
    { entries := p.entry :: rest.entries
      any := p.ready || rest.any
      spawned := p.spawned ++ rest.spawned
      events := p.events ++ rest.events }

@[simp] theorem runPass_nil (tid : Nat) :
    runPass tid [] = { entries := [], any := false, spawned := [], events := [] } := rfl

@[simp] theorem runPass_cons (tid : Nat) (e : Entry) (es : List Entry) :
    runPass tid (e :: es) =
      { entries := (pollEntry tid e).entry :: (runPass tid es).entries
        any := (pollEntry tid e).ready || (runPass tid es).any
        spawned := (pollEntry tid e).spawned ++ (runPass tid es).spawned
        events := (pollEntry tid e).events ++ (runPass tid es).events } := rfl

theorem runPass_entries (tid : Nat) (l : List Entry) :
    (runPass tid l).entries = l.map (fun e => (pollEntry tid e).entry) := by
  induction l with
  | nil => rfl
  | cons e es ih => simp [ih]

theorem runPass_entries_length (tid : Nat) (l : List Entry) :
    (runPass tid l).entries.length = l.length := by
  simp [runPass_entries]

theorem runPass_any_exists_done (tid : Nat) (l : List Entry)
    (h : (runPass tid l).any = true) :
    ∃ e ∈ (runPass tid l).entries, e.done = true := by
  induction l with
  | nil => simp at h
  | cons e es ih =>
    simp only [runPass_cons, Bool.or_eq_true] at h
    rcases h with h | h
    · refine ⟨(pollEntry tid e).entry, by simp, ?_⟩
      simp [pollEntry] at h ⊢
      simp [h]
    · obtain ⟨x, hx, hd⟩ := ih h
      exact ⟨x, by simp [hx], hd⟩

/-- Result of the full drain-and-poll loop of `run_until_stalled`. -/
structure LoopRes where
  executing : List Entry
  spawned : List Entry
  passes : Nat
  events : List Event

theorem filter_not_done_length_lt (l : List Entry) (e : Entry) (he : e ∈ l)
    (hd : e.done = true) : (l.filter (fun x => !x.done)).length < l.length := by
  rw [List.length_filter_lt_length_iff_exists]
  exact ⟨e, he, by simp [hd]⟩

/-- The `loop { .. }` of `run_until_stalled`: run one pass over the
executing sequence; if no poll returned `Ready` (`!any`), return; otherwise
compact out the done entries (`retain(|e| !e.done)`) and repeat.  `passes`
counts the passes executed. -/
def runLoop (tid : Nat) (ex : List Entry) : LoopRes :=
  let pr := runPass tid ex
  if h : pr.any = true then
    let r := runLoop tid (pr.entries.filter (fun e => !e.done))
    { executing := r.executing, spawned := pr.spawned ++ r.spawned
      passes := r.passes + 1, events := pr.events ++ r.events }
  else
    { executing := pr.entries, spawned := pr.spawned, passes := 1, events := pr.events }
termination_by ex.length
decreasing_by
  obtain ⟨e, he, hd⟩ := runPass_any_exists_done tid ex h
  calc ((runPass tid ex).entries.filter (fun x => !x.done)).length
      < (runPass tid ex).entries.length := filter_not_done_length_lt _ e he hd
    _ = ex.length := runPass_entries_length tid ex

theorem runLoop_pos (tid : Nat) (ex : List Entry)
    (h : (runPass tid ex).any = true) :
    runLoop tid ex =
      { executing := (runLoop tid ((runPass tid ex).entries.filter (fun e => !e.done))).executing
        spawned := (runPass tid ex).spawned ++
          (runLoop tid ((runPass tid ex).entries.filter (fun e => !e.done))).spawned
        passes := (runLoop tid ((runPass tid ex).entries.filter (fun e => !e.done))).passes + 1
        events := (runPass tid ex).events ++
          (runLoop tid ((runPass tid ex).entries.filter (fun e => !e.done))).events } := by
  rw [runLoop]
  simp [h]

theorem runLoop_neg (tid : Nat) (ex : List Entry)
    (h : ¬ (runPass tid ex).any = true) :
    runLoop tid ex =
      { executing := (runPass tid ex).entries, spawned := (runPass tid ex).spawned
        passes := 1, events := (runPass tid ex).events } := by
  rw [runLoop]
  simp [h]

/-- Model of `Pool::run_until_stalled`: acquire the `Shared` lock, move the whole
pending queue to the tail of the executing sequence
(`self.executing.append(&mut shared.pending)`), release the lock
(`drop(shared)`), then run the poll loop with the lock released.  Reentrant
spawns performed during the polling are pushed to the pending queue, which
is not re-read by this call, so they are exactly the pending queue at
return. -/
def run_until_stalled (p : Pool) : Pool × List Event :=
  let r := runLoop p.waker_thread (p.executing ++ p.shared.pending)
  ({ p with executing := r.executing
            shared := { p.shared with pending := r.spawned } },
   Event.lockAcquire :: Event.lockRelease :: r.events)

/-- The environment a `Spawner` call runs in: whether the weak reference can
still be upgraded (the pool's `Arc<Mutex<Shared>>` is still alive), whether
the mutex is poisoned, whether `PostThreadMessageW` would succeed, and the
shared record itself. -/
structure SpawnState where
  alive : Bool
  poisoned : Bool
  wake_ok : Bool
  shared : Shared

instance : DecidableEq (Except Unit Unit) := fun a b => by
  cases a <;> cases b <;> first
    | exact isTrue rfl
    | exact isFalse (by intro h; cases h)

/-- Outcome of `Spawner::spawn`: a normal return carrying the
`Result<(), ()>` value, or a panic (the `assert!` on the wake post
failing). -/
inductive SpawnOutcome where
  | ret (r : Except Unit Unit)
  | panicked
deriving DecidableEq

/-- Model of `Spawner::spawn`: upgrade the weak reference (`Err(())` if the pool is
gone), lock the shared record (`Err(())` if poisoned), read the owning
thread id, push the entry at the back of the pending queue, release the
lock (`drop(shared)`), then post `WM_NULL` to the owning thread and assert
the post succeeded. -/
def spawn (st : SpawnState) (e : Entry) : SpawnOutcome × SpawnState × List Event :=
  if st.alive = false then
    (.ret (.error ()), st, [])
  else if st.poisoned = true then
    (.ret (.error ()), st, [])
  else
    let tid := st.shared.thread_id
    let st' := { st with shared := { st.shared with pending := st.shared.pending ++ [e] } }
    if st.wake_ok = true then
      (.ret (.ok ()), st', [Event.lockAcquire, Event.lockRelease, Event.wake tid none])
    else
      (.panicked, st', [Event.lockAcquire, Event.lockRelease])

/-! ### Event classification helpers -/

/-- Whether an event is a poll event. -/
def Event.isPoll : Event → Bool
  | .poll _ _ => true
  | _ => false

/-- Whether an event is a lock operation. -/
def Event.isLock : Event → Bool
  | .lockAcquire => true
  | .lockRelease => true
  | _ => false

/-- Whether an event is a wake post. -/
def Event.isWake : Event → Bool
  | .wake _ _ => true
  | _ => false

/-- Whether an event concerns the task with ghost id `t`: a poll of that
task, or a wake posted by that task's waker. -/
def Event.ofTask (t : Nat) : Event → Bool
  | .poll i _ => i == t
  | .wake _ (some i) => i == t
  | _ => false

@[simp] theorem Event.ofTask_poll (t i : Nat) (r : PollResult) :
    Event.ofTask t (.poll i r) = (i == t) := rfl

@[simp] theorem Event.ofTask_wake_some (t tid i : Nat) :
    Event.ofTask t (.wake tid (some i)) = (i == t) := rfl

@[simp] theorem Event.ofTask_wake_none (t tid : Nat) :
    Event.ofTask t (.wake tid none) = false := rfl

/-! ### pollEntry lemmas -/

@[simp] theorem pollEntry_entry (tid : Nat) (e : Entry) :
    (pollEntry tid e).entry = e.advance (e.future e.polls).isReady := rfl

@[simp] theorem pollEntry_ready (tid : Nat) (e : Entry) :
    (pollEntry tid e).ready = (e.future e.polls).isReady := rfl

@[simp] theorem pollEntry_spawned (tid : Nat) (e : Entry) :
    (pollEntry tid e).spawned = e.spawns e.polls := rfl

theorem pollEntry_events (tid : Nat) (e : Entry) :
    (pollEntry tid e).events =
      (e.spawns e.polls).map (fun _ => Event.wake tid none)
        ++ (if e.calls_waker e.polls then [Event.wake tid (some e.id)] else [])
        ++ [Event.poll e.id (e.future e.polls)] := rfl

theorem poll_mem_pollEntry_events (tid i : Nat) (r : PollResult) (e : Entry) :
    Event.poll i r ∈ (pollEntry tid e).events ↔ i = e.id ∧ r = e.future e.polls := by
  rw [pollEntry_events]
  simp only [List.mem_append, List.mem_map, List.mem_singleton]
  constructor
  · rintro ((⟨x, _, h⟩ | h) | h)
    · cases h
    · rcases Bool.eq_false_or_eq_true (e.calls_waker e.polls) with hw | hw <;> simp [hw] at h
    · cases h; exact ⟨rfl, rfl⟩
  · rintro ⟨rfl, rfl⟩
    right
    rfl

theorem pollEntry_events_not_lock (tid : Nat) (e : Entry) :
    ∀ ev ∈ (pollEntry tid e).events, ev.isLock = false := by
  intro ev hev
  rw [pollEntry_events] at hev
  simp only [List.mem_append, List.mem_map, List.mem_singleton] at hev
  rcases hev with (⟨x, _, h⟩ | h) | h
  · rw [← h]; rfl
  · rcases Bool.eq_false_or_eq_true (e.calls_waker e.polls) with hw | hw <;> simp [hw] at h
    subst h; rfl
  · subst h; rfl

theorem pollEntry_events_ofTask_false (tid t : Nat) (e : Entry) (hne : e.id ≠ t) :
    ∀ ev ∈ (pollEntry tid e).events, Event.ofTask t ev = false := by
  intro ev hev
  rw [pollEntry_events] at hev
  simp only [List.mem_append, List.mem_map, List.mem_singleton] at hev
  rcases hev with (⟨x, _, h⟩ | h) | h
  · rw [← h]; rfl
  · rcases Bool.eq_false_or_eq_true (e.calls_waker e.polls) with hw | hw <;> simp [hw] at h
    subst h; simp [hne]
  · subst h; simp [hne]

theorem pollEntry_events_filter_poll (tid : Nat) (e : Entry) :
    (pollEntry tid e).events.filter Event.isPoll = [Event.poll e.id (e.future e.polls)] := by
  rw [pollEntry_events]
  rw [List.filter_append, List.filter_append]
  rw [List.filter_eq_nil_iff.mpr, List.filter_eq_nil_iff.mpr]
  · rfl
  · intro a ha
    rcases Bool.eq_false_or_eq_true (e.calls_waker e.polls) with hw | hw <;> simp [hw] at ha
    subst ha; simp [Event.isPoll]
  · intro a ha
    simp only [List.mem_map] at ha
    obtain ⟨x, _, h⟩ := ha
    rw [← h]; simp [Event.isPoll]

/-! ### runPass lemmas -/

theorem runPass_entries_map_id (tid : Nat) (l : List Entry) :
    (runPass tid l).entries.map Entry.id = l.map Entry.id := by
  rw [runPass_entries, List.map_map]
  congr 1
  funext e
  simp [Function.comp]

theorem runPass_events_eq (tid : Nat) (l : List Entry) :
    (runPass tid l).events = (l.map (fun e => (pollEntry tid e).events)).flatten := by
  induction l with
  | nil => rfl
  | cons e es ih => simp [ih]

theorem runPass_spawned_eq (tid : Nat) (l : List Entry) :
    (runPass tid l).spawned = (l.map (fun e => e.spawns e.polls)).flatten := by
  induction l with
  | nil => rfl
  | cons e es ih => simp [ih]

theorem runPass_any_iff (tid : Nat) (l : List Entry) :
    (runPass tid l).any = true ↔ ∃ e ∈ l, (e.future e.polls).isReady = true := by
  induction l with
  | nil => simp
  | cons e es ih =>
    simp only [runPass_cons, Bool.or_eq_true, pollEntry_ready, ih, List.mem_cons]
    constructor
    · rintro (h | ⟨x, hx, hr⟩)
      · exact ⟨e, Or.inl rfl, h⟩
      · exact ⟨x, Or.inr hx, hr⟩
    · rintro ⟨x, hx | hx, hr⟩
      · subst hx; exact Or.inl hr
      · exact Or.inr ⟨x, hx, hr⟩

theorem poll_mem_runPass_events (tid i : Nat) (r : PollResult) (l : List Entry) :
    Event.poll i r ∈ (runPass tid l).events ↔ ∃ e ∈ l, e.id = i ∧ r = e.future e.polls := by
  rw [runPass_events_eq]
  simp only [List.mem_flatten, List.mem_map]
  constructor
  · rintro ⟨evs, ⟨e, he, rfl⟩, hmem⟩
    obtain ⟨rfl, hr⟩ := (poll_mem_pollEntry_events tid i r e).mp hmem
    exact ⟨e, he, rfl, hr⟩
  · rintro ⟨e, he, rfl, hr⟩
    exact ⟨(pollEntry tid e).events, ⟨e, he, rfl⟩,
      (poll_mem_pollEntry_events tid e.id r e).mpr ⟨rfl, hr⟩⟩

theorem runPass_events_not_lock (tid : Nat) (l : List Entry) :
    ∀ ev ∈ (runPass tid l).events, ev.isLock = false := by
  intro ev hev
  rw [runPass_events_eq] at hev
  simp only [List.mem_flatten, List.mem_map] at hev
  obtain ⟨evs, ⟨e, _, rfl⟩, hmem⟩ := hev
  exact pollEntry_events_not_lock tid e ev hmem

theorem runPass_events_ofTask_false (tid t : Nat) (l : List Entry)
    (h : t ∉ l.map Entry.id) : ∀ ev ∈ (runPass tid l).events, Event.ofTask t ev = false := by
  intro ev hev
  rw [runPass_events_eq] at hev
  simp only [List.mem_flatten, List.mem_map] at hev
  obtain ⟨evs, ⟨e, he, rfl⟩, hmem⟩ := hev
  refine pollEntry_events_ofTask_false tid t e (fun hid => h ?_) ev hmem
  exact hid ▸ List.mem_map_of_mem Entry.id he

theorem runPass_events_filter_poll (tid : Nat) (l : List Entry) :
    (runPass tid l).events.filter Event.isPoll =
      l.map (fun e => Event.poll e.id (e.future e.polls)) := by
  induction l with
  | nil => rfl
  | cons e es ih =>
    simp only [runPass_cons, List.map_cons, List.filter_append,
      pollEntry_events_filter_poll, ih]
    rfl

/-! ### runLoop lemmas -/

theorem runLoop_events_pos (tid : Nat) (ex : List Entry)
    (h : (runPass tid ex).any = true) :
    (runLoop tid ex).events = (runPass tid ex).events ++
      (runLoop tid ((runPass tid ex).entries.filter (fun e => !e.done))).events := by
  rw [runLoop_pos tid ex h]

theorem runLoop_events_neg (tid : Nat) (ex : List Entry)
    (h : ¬ (runPass tid ex).any = true) :
    (runLoop tid ex).events = (runPass tid ex).events := by
  rw [runLoop_neg tid ex h]

theorem runLoop_executing_pos (tid : Nat) (ex : List Entry)
    (h : (runPass tid ex).any = true) :
    (runLoop tid ex).executing =
      (runLoop tid ((runPass tid ex).entries.filter (fun e => !e.done))).executing := by
  rw [runLoop_pos tid ex h]

theorem runLoop_executing_neg (tid : Nat) (ex : List Entry)
    (h : ¬ (runPass tid ex).any = true) :
    (runLoop tid ex).executing = (runPass tid ex).entries := by
  rw [runLoop_neg tid ex h]

theorem runLoop_spawned_pos (tid : Nat) (ex : List Entry)
    (h : (runPass tid ex).any = true) :
    (runLoop tid ex).spawned = (runPass tid ex).spawned ++
      (runLoop tid ((runPass tid ex).entries.filter (fun e => !e.done))).spawned := by
  rw [runLoop_pos tid ex h]

theorem runLoop_spawned_neg (tid : Nat) (ex : List Entry)
    (h : ¬ (runPass tid ex).any = true) :
    (runLoop tid ex).spawned = (runPass tid ex).spawned := by
  rw [runLoop_neg tid ex h]

theorem runLoop_passes_pos (tid : Nat) (ex : List Entry)
    (h : (runPass tid ex).any = true) :
    (runLoop tid ex).passes =
      (runLoop tid ((runPass tid ex).entries.filter (fun e => !e.done))).passes + 1 := by
  rw [runLoop_pos tid ex h]

theorem runLoop_passes_neg (tid : Nat) (ex : List Entry)
    (h : ¬ (runPass tid ex).any = true) :
    (runLoop tid ex).passes = 1 := by
  rw [runLoop_neg tid ex h]

theorem filter_ids_subset (l : List Entry) (p : Entry → Bool) :
    ((l.filter p).map Entry.id) ⊆ l.map Entry.id :=
  ((List.filter_sublist l).map Entry.id).subset

theorem filter_ids_nodup (l : List Entry) (p : Entry → Bool)
    (h : (l.map Entry.id).Nodup) : ((l.filter p).map Entry.id).Nodup :=
  h.sublist ((List.filter_sublist l).map Entry.id)

theorem filtered_ids_sub_orig (tid : Nat) (x : List Entry) :
    (((runPass tid x).entries.filter (fun e => !e.done)).map Entry.id) ⊆
      x.map Entry.id := by
  intro i hi
  have h1 := filter_ids_subset ((runPass tid x).entries) (fun e => !e.done) hi
  rwa [runPass_entries_map_id] at h1

theorem filtered_ids_nodup_of (tid : Nat) (x : List Entry)
    (h : (x.map Entry.id).Nodup) :
    (((runPass tid x).entries.filter (fun e => !e.done)).map Entry.id).Nodup := by
  apply filter_ids_nodup
  rwa [runPass_entries_map_id]

theorem runLoop_executing_ids_sub (tid : Nat) (l : List Entry) :
    ∀ i ∈ (runLoop tid l).executing.map Entry.id, i ∈ l.map Entry.id := by
  induction l using runLoop.induct tid with
  | case1 x pr hany ih =>
    have hany : (runPass tid x).any = true := hany
    intro i hi
    rw [runLoop_executing_pos tid x hany] at hi
    exact filtered_ids_sub_orig tid x (ih i hi)
  | case2 x pr hany =>
    have hany : ¬ (runPass tid x).any = true := hany
    intro i hi
    rw [runLoop_executing_neg tid x hany] at hi
    rwa [runPass_entries_map_id] at hi

theorem runLoop_events_ofTask_false (tid t : Nat) (l : List Entry) :
    t ∉ l.map Entry.id →
      ∀ ev ∈ (runLoop tid l).events, Event.ofTask t ev = false := by
  induction l using runLoop.induct tid with
  | case1 x pr hany ih =>
    have hany : (runPass tid x).any = true := hany
    intro hnot ev hev
    rw [runLoop_events_pos tid x hany, List.mem_append] at hev
    rcases hev with hev | hev
    · exact runPass_events_ofTask_false tid t x hnot ev hev
    · exact ih (fun hmem => hnot (filtered_ids_sub_orig tid x hmem)) ev hev
  | case2 x pr hany =>
    have hany : ¬ (runPass tid x).any = true := hany
    intro hnot ev hev
    rw [runLoop_events_neg tid x hany] at hev
    exact runPass_events_ofTask_false tid t x hnot ev hev

theorem runLoop_events_not_lock (tid : Nat) (l : List Entry) :
    ∀ ev ∈ (runLoop tid l).events, ev.isLock = false := by
  induction l using runLoop.induct tid with
  | case1 x pr hany ih =>
    have hany : (runPass tid x).any = true := hany
    intro ev hev
    rw [runLoop_events_pos tid x hany, List.mem_append] at hev
    rcases hev with hev | hev
    · exact runPass_events_not_lock tid x ev hev
    · exact ih ev hev
  | case2 x pr hany =>
    have hany : ¬ (runPass tid x).any = true := hany
    intro ev hev
    rw [runLoop_events_neg tid x hany] at hev
    exact runPass_events_not_lock tid x ev hev

theorem runLoop_passes_le (tid : Nat) (l : List Entry) :
    (runLoop tid l).passes ≤ l.length + 1 := by
  induction l using runLoop.induct tid with
  | case1 x pr hany ih =>
    have hany : (runPass tid x).any = true := hany
    rw [runLoop_passes_pos tid x hany]
    have hlt : ((runPass tid x).entries.filter (fun e => !e.done)).length < x.length := by
      obtain ⟨e, he, hd⟩ := runPass_any_exists_done tid x hany
      calc ((runPass tid x).entries.filter (fun e => !e.done)).length
          < (runPass tid x).entries.length := filter_not_done_length_lt _ e he hd
        _ = x.length := runPass_entries_length tid x
    have ih' : (runLoop tid ((runPass tid x).entries.filter (fun e => !e.done))).passes ≤
        ((runPass tid x).entries.filter (fun e => !e.done)).length + 1 := ih
    omega
  | case2 x pr hany =>
    have hany : ¬ (runPass tid x).any = true := hany
    rw [runLoop_passes_neg tid x hany]
    omega

theorem runLoop_events_pass_first (tid : Nat) (l : List Entry) :
    ∃ rest, (runLoop tid l).events = (runPass tid l).events ++ rest := by
  by_cases h : (runPass tid l).any = true
  · exact ⟨_, runLoop_events_pos tid l h⟩
  · exact ⟨[], by rw [runLoop_events_neg tid l h, List.append_nil]⟩

theorem runLoop_poll_mem (tid i : Nat) (r : PollResult) (l : List Entry)
    (h : Event.poll i r ∈ (runLoop tid l).events) : i ∈ l.map Entry.id := by
  by_contra hnot
  have := runLoop_events_ofTask_false tid i l hnot _ h
  simp [Event.ofTask] at this

/-! ### Silence of a task after its Ready poll -/

@[simp] theorem runPass_events_cons (tid : Nat) (e : Entry) (es : List Entry) :
    (runPass tid (e :: es)).events = (pollEntry tid e).events ++ (runPass tid es).events := rfl

@[simp] theorem runPass_entries_cons (tid : Nat) (e : Entry) (es : List Entry) :
    (runPass tid (e :: es)).entries = (pollEntry tid e).entry :: (runPass tid es).entries := rfl

/-- In the trace `evs`, after an occurrence of the Ready poll of the task
with ghost id `t`, no later event concerns that task: it is neither polled
again nor does its waker fire again. -/
def SilentAfterReady (t : Nat) (evs : List Event) : Prop :=
  ∀ u v, evs = u ++ v → Event.poll t .ready ∈ u →
    ∀ ev ∈ v, Event.ofTask t ev = false

theorem silentAfterReady_of_not_mem (t : Nat) (evs : List Event)
    (h : Event.poll t .ready ∉ evs) : SilentAfterReady t evs := by
  intro u v huv hmem ev _
  exact absurd (by rw [huv]; exact List.mem_append_left v hmem) h

theorem silentAfterReady_append (t : Nat) (A B : List Event)
    (hA : SilentAfterReady t A) (hB : SilentAfterReady t B)
    (hcross : Event.poll t .ready ∈ A → ∀ ev ∈ B, Event.ofTask t ev = false) :
    SilentAfterReady t (A ++ B) := by
  intro u v huv hmem ev hev
  rcases List.append_eq_append_iff.mp huv with ⟨w, hu, hBw⟩ | ⟨w, hAw, hv⟩
  · subst hu
    rcases List.mem_append.mp hmem with hrA | hrw
    · exact hcross hrA ev (by rw [hBw]; exact List.mem_append_right w hev)
    · exact hB w v hBw hrw ev hev
  · subst hv
    rcases List.mem_append.mp hev with hw | hvB
    · exact hA u w hAw hmem ev hw
    · exact hcross (by rw [hAw]; exact List.mem_append_left w hmem) ev hvB

theorem silentAfterReady_singleton (t : Nat) (ev : Event) :
    SilentAfterReady t [ev] := by
  intro u v huv hmem ev' hev'
  cases u with
  | nil => simp at hmem
  | cons a u' =>
    simp only [List.cons_append, List.cons.injEq] at huv
    obtain ⟨-, h2⟩ := huv
    have hv : v = [] := (List.append_eq_nil.mp h2.symm).2
    subst hv
    simp at hev'

theorem no_ready_poll_in_wakes (tid t : Nat) (e : Entry) :
    Event.poll t .ready ∉
      ((e.spawns e.polls).map (fun _ => Event.wake tid none)
        ++ (if e.calls_waker e.polls then [Event.wake tid (some e.id)] else [])) := by
  intro hmem
  rcases List.mem_append.mp hmem with h | h
  · obtain ⟨x, -, hx⟩ := List.mem_map.mp h
    cases hx
  · rcases Bool.eq_false_or_eq_true (e.calls_waker e.polls) with hw | hw <;> simp [hw] at h

theorem silentAfterReady_pollEntry (tid t : Nat) (e : Entry) :
    SilentAfterReady t (pollEntry tid e).events := by
  rw [pollEntry_events]
  exact silentAfterReady_append t _ _
    (silentAfterReady_of_not_mem t _ (no_ready_poll_in_wakes tid t e))
    (silentAfterReady_singleton t _)
    (fun hmem => absurd hmem (no_ready_poll_in_wakes tid t e))

theorem silentAfterReady_runPass (tid t : Nat) (l : List Entry)
    (hnodup : (l.map Entry.id).Nodup) :
    SilentAfterReady t (runPass tid l).events := by
  induction l with
  | nil => exact silentAfterReady_of_not_mem t _ (by simp)
  | cons e es ih =>
    rw [List.map_cons, List.nodup_cons] at hnodup
    obtain ⟨hni, hnd⟩ := hnodup
    rw [runPass_events_cons]
    refine silentAfterReady_append t _ _ (silentAfterReady_pollEntry tid t e) (ih hnd) ?_
    intro hmem ev hev
    obtain ⟨ht, -⟩ := (poll_mem_pollEntry_events tid t .ready e).mp hmem
    subst ht
    exact runPass_events_ofTask_false tid e.id es hni ev hev

theorem runPass_ready_done (tid t : Nat) (l : List Entry)
    (hnodup : (l.map Entry.id).Nodup)
    (hready : Event.poll t .ready ∈ (runPass tid l).events) :
    ∀ x ∈ (runPass tid l).entries, x.id = t → x.done = true := by
  induction l with
  | nil => simp at hready
  | cons e es ih =>
    rw [List.map_cons, List.nodup_cons] at hnodup
    obtain ⟨hni, hnd⟩ := hnodup
    rw [runPass_events_cons, List.mem_append] at hready
    intro x hx hxid
    rw [runPass_entries_cons] at hx
    rcases hready with hr | hr
    · obtain ⟨ht, hres⟩ := (poll_mem_pollEntry_events tid t .ready e).mp hr
      rcases List.mem_cons.mp hx with rfl | hx'
      · simp [← hres, PollResult.isReady]
      · exfalso
        apply hni
        have hmm : x.id ∈ (runPass tid es).entries.map Entry.id :=
          List.mem_map_of_mem Entry.id hx'
        rw [runPass_entries_map_id] at hmm
        rwa [hxid, ht] at hmm
    · rcases List.mem_cons.mp hx with rfl | hx'
      · exfalso
        have hmem : t ∈ es.map Entry.id := by
          obtain ⟨e', he', hid, -⟩ := (poll_mem_runPass_events tid t .ready es).mp hr
          exact hid ▸ List.mem_map_of_mem Entry.id he'
        apply hni
        have hid : e.id = t := by simpa using hxid
        rwa [hid]
      · exact ih hnd hr x hx' hxid

theorem ready_not_in_filtered_ids (tid t : Nat) (x : List Entry)
    (hnodup : (x.map Entry.id).Nodup)
    (hready : Event.poll t .ready ∈ (runPass tid x).events) :
    t ∉ ((runPass tid x).entries.filter (fun e => !e.done)).map Entry.id := by
  intro hmem
  obtain ⟨y, hy, hyid⟩ := List.mem_map.mp hmem
  have hyf := List.mem_filter.mp hy
  have hdone := runPass_ready_done tid t x hnodup hready y hyf.1 hyid
  have := hyf.2
  rw [hdone] at this
  simp at this

theorem runLoop_silentAfterReady (tid t : Nat) (l : List Entry) :
    (l.map Entry.id).Nodup → SilentAfterReady t (runLoop tid l).events := by
  induction l using runLoop.induct tid with
  | case1 x pr hany ih =>
    have hany : (runPass tid x).any = true := hany
    intro hnodup
    rw [runLoop_events_pos tid x hany]
    have hnd' := filtered_ids_nodup_of tid x hnodup
    have ihx : SilentAfterReady t
        (runLoop tid ((runPass tid x).entries.filter (fun e => !e.done))).events := ih hnd'
    refine silentAfterReady_append t _ _ (silentAfterReady_runPass tid t x hnodup) ihx ?_
    intro hmem ev hev
    exact runLoop_events_ofTask_false tid t _
      (ready_not_in_filtered_ids tid t x hnodup hmem) ev hev
  | case2 x pr hany =>
    have hany : ¬ (runPass tid x).any = true := hany
    intro hnodup
    rw [runLoop_events_neg tid x hany]
    exact silentAfterReady_runPass tid t x hnodup

theorem runLoop_ready_removed (tid t : Nat) (l : List Entry) :
    (l.map Entry.id).Nodup → Event.poll t .ready ∈ (runLoop tid l).events →
      t ∉ (runLoop tid l).executing.map Entry.id := by
  induction l using runLoop.induct tid with
  | case1 x pr hany ih =>
    have hany : (runPass tid x).any = true := hany
    intro hnodup hready hmem
    rw [runLoop_events_pos tid x hany, List.mem_append] at hready
    rw [runLoop_executing_pos tid x hany] at hmem
    have hnd' := filtered_ids_nodup_of tid x hnodup
    rcases hready with hr | hr
    · exact ready_not_in_filtered_ids tid t x hnodup hr
        (runLoop_executing_ids_sub tid ((runPass tid x).entries.filter (fun e => !e.done))
          t hmem)
    · have ihx : t ∉ (runLoop tid
          ((runPass tid x).entries.filter (fun e => !e.done))).executing.map Entry.id :=
        ih hnd' hr
      exact ihx hmem
  | case2 x pr hany =>
    have hany : ¬ (runPass tid x).any = true := hany
    intro hnodup hready hmem
    rw [runLoop_events_neg tid x hany] at hready
    obtain ⟨e, he, -, hres⟩ := (poll_mem_runPass_events tid t .ready x).mp hready
    refine hany ((runPass_any_iff tid x).mpr ⟨e, he, ?_⟩)
    rw [← hres]
    rfl

/-! ### Concrete data used by witnesses and counterexamples -/

/-- A task that completes on its very first poll, never invokes the waker,
spawns nothing. -/
def quickTask : Entry := .mk 1 (fun _ => .ready) (fun _ => false) (fun _ => []) 0 false

/-- A task that stays pending forever, never invokes the waker, spawns
nothing. -/
def idleTask : Entry := .mk 2 (fun _ => .pending) (fun _ => false) (fun _ => []) 0 false

/-- A task that reentrantly spawns `idleTask` during its first poll and
completes immediately. -/
def spawningTask : Entry :=
  .mk 3 (fun _ => .ready) (fun _ => false) (fun n => if n = 0 then [idleTask] else []) 0 false

/-- A pool on thread 7 with `idleTask` executing and `quickTask` pending. -/
def pool1 : Pool := { waker_thread := 7, executing := [idleTask], shared := ⟨7, [quickTask]⟩ }

/-- A pool on thread 7 whose only pending task spawns reentrantly. -/
def poolSpawn : Pool := { waker_thread := 7, executing := [], shared := ⟨7, [spawningTask]⟩ }

/-- A live, unpoisoned spawn environment whose wake post succeeds. -/
def stLive : SpawnState := { alive := true, poisoned := false, wake_ok := true, shared := ⟨7, []⟩ }

/-- A spawn environment whose pool has been destroyed. -/
def stDead : SpawnState := { alive := false, poisoned := false, wake_ok := true, shared := ⟨7, []⟩ }

/-- A live spawn environment whose mutex is poisoned. -/
def stPoisoned : SpawnState :=
  { alive := true, poisoned := true, wake_ok := true, shared := ⟨7, []⟩ }

/-! ### Claims about Spawner::spawn -/

/-- C3 (amended): for every successful call of `spawn` (pool alive, lock
healthy, wake deliverable), the task is appended to the tail of the pending
queue and the wake targeting the stored owning-thread identifier is invoked
unconditionally and synchronously — but only after the lock has been
released: the trace of the call is exactly acquire, release, wake. -/
theorem claim_C3_spawn_appends_then_unlocks_then_wakes (st : SpawnState) (e : Entry)
    (halive : st.alive = true) (hpois : st.poisoned = false) (hwake : st.wake_ok = true) :
    (spawn st e).1 = .ret (.ok ()) ∧
    (spawn st e).2.1.shared.pending = st.shared.pending ++ [e] ∧
    (spawn st e).2.1.shared.thread_id = st.shared.thread_id ∧
    (spawn st e).2.2 = [Event.lockAcquire, Event.lockRelease,
      Event.wake st.shared.thread_id none] := by
  simp [spawn, halive, hpois, hwake]

theorem claim_C3_witness :
    (spawn stLive idleTask).1 = .ret (.ok ()) ∧
    (spawn stLive idleTask).2.1.shared.pending = stLive.shared.pending ++ [idleTask] ∧
    (spawn stLive idleTask).2.1.shared.thread_id = stLive.shared.thread_id ∧
    (spawn stLive idleTask).2.2 = [Event.lockAcquire, Event.lockRelease,
      Event.wake stLive.shared.thread_id none] :=
  claim_C3_spawn_appends_then_unlocks_then_wakes stLive idleTask rfl rfl rfl

/-- C3 (counterexample to the claim as stated): in a successful spawn the
lock release is NOT preceded by any wake event — the trace is acquire,
release, wake — so it is false that the lock is released only after the
wake is invoked. -/
theorem claim_C3_counterexample :
    ¬ ∀ j < (spawn stLive idleTask).2.2.length,
        (spawn stLive idleTask).2.2[j]? = some Event.lockRelease →
        ∃ i < j, ((spawn stLive idleTask).2.2[i]?.map Event.isWake) = some true := by
  decide

/-- C4: for every `Spawner` whose owning pool has been destroyed (the weak
upgrade fails), `spawn` returns the `Err(())` (Disconnected) value
synchronously, never panics (not even when the wake post would fail), and
performs no wake invocation and no state change. -/
theorem claim_C4_spawn_disconnected (st : SpawnState) (e : Entry)
    (hdead : st.alive = false) :
    (spawn st e).1 = .ret (.error ()) ∧
    (spawn st e).1 ≠ .panicked ∧
    (spawn st e).2.1 = st ∧
    (spawn st e).2.2 = [] := by
  simp [spawn, hdead]

theorem claim_C4_witness :
    (spawn stDead quickTask).1 = .ret (.error ()) ∧
    (spawn stDead quickTask).1 ≠ .panicked ∧
    (spawn stDead quickTask).2.1 = stDead ∧
    (spawn stDead quickTask).2.2 = [] :=
  claim_C4_spawn_disconnected stDead quickTask rfl

/-- C8: the two failure conditions of `spawn` — pool destroyed and mutex
poisoned — both return the identical error value `Err(())` of unit error
type, so a caller cannot distinguish them by inspecting the result. -/
theorem claim_C8_indistinguishable_errors (st₁ st₂ : SpawnState) (e₁ e₂ : Entry)
    (h₁ : st₁.alive = false) (h₂ : st₂.alive = true) (hp₂ : st₂.poisoned = true) :
    (spawn st₁ e₁).1 = .ret (.error ()) ∧
    (spawn st₂ e₂).1 = .ret (.error ()) ∧
    (spawn st₁ e₁).1 = (spawn st₂ e₂).1 := by
  simp [spawn, h₁, h₂, hp₂]

theorem claim_C8_witness :
    (spawn stDead quickTask).1 = .ret (.error ()) ∧
    (spawn stPoisoned idleTask).1 = .ret (.error ()) ∧
    (spawn stDead quickTask).1 = (spawn stPoisoned idleTask).1 :=
  claim_C8_indistinguishable_errors stDead stPoisoned quickTask idleTask rfl rfl rfl

/-- C9: `spawn` is atomic on error — whenever it returns `Err`, the shared
record (in particular the pending queue) is unchanged and no event at all
(no lock operation, no wake) was produced. -/
theorem claim_C9_spawn_atomic_on_error (st : SpawnState) (e : Entry)
    (herr : (spawn st e).1 = .ret (.error ())) :
    (spawn st e).2.1 = st ∧ (spawn st e).2.2 = [] := by
  by_cases ha : st.alive = false
  · simp [spawn, ha]
  · by_cases hp : st.poisoned = true
    · simp [spawn, ha, hp]
    · exfalso
      by_cases hw : st.wake_ok = true <;> simp [spawn, ha, hp, hw] at herr

theorem claim_C9_witness :
    ((spawn stPoisoned quickTask).1 = .ret (.error ())) ∧
    (spawn stPoisoned quickTask).2.1 = stPoisoned ∧
    (spawn stPoisoned quickTask).2.2 = [] :=
  ⟨by decide, claim_C9_spawn_atomic_on_error stPoisoned quickTask (by decide)⟩

/-! ### Claims about Pool::run_until_stalled -/

/-- C7: `run_until_stalled` on an empty pool (no pending, no executing
tasks) returns immediately without side effects: the pool — executing set,
pending queue and stored thread identifier — is unchanged, and the trace
shows only the lock acquire/release pair: no poll, no wake. -/
theorem claim_C7_empty_pool_no_effects (p : Pool)
    (hex : p.executing = []) (hpend : p.shared.pending = []) :
    (run_until_stalled p).1 = p ∧
    (run_until_stalled p).2 = [Event.lockAcquire, Event.lockRelease] := by
  obtain ⟨wt, ex, ⟨ti, pe⟩⟩ := p
  simp only at hex hpend
  subst hex hpend
  have h := runLoop_neg wt [] (by simp)
  constructor
  · simp [run_until_stalled, h]
  · simp [run_until_stalled, h]

theorem claim_C7_witness :
    (run_until_stalled (Pool.new 7)).1 = Pool.new 7 ∧
    (run_until_stalled (Pool.new 7)).2 = [Event.lockAcquire, Event.lockRelease] :=
  claim_C7_empty_pool_no_effects (Pool.new 7) rfl rfl

/-- C1: `run_until_stalled` first acquires the `Shared` lock and releases
it before any task is polled: its trace starts with the acquire/release
pair and contains no lock event afterwards, so the lock is never held
during a poll; the first pass polls exactly the old executing sequence
followed by the entire old pending queue, in submission order (the
pending queue was moved to the tail of the executing sequence); and the
pending queue retains at return only what was spawned reentrantly during
the call — the moved-out queue is gone. -/
theorem claim_C1_drain_unlock_then_poll (p : Pool) :
    (run_until_stalled p).2.take 2 = [Event.lockAcquire, Event.lockRelease] ∧
    (∀ ev ∈ (run_until_stalled p).2.drop 2, ev.isLock = false) ∧
    ((run_until_stalled p).2.filter Event.isPoll).take
        (p.executing.length + p.shared.pending.length) =
      (p.executing ++ p.shared.pending).map (fun e => Event.poll e.id (e.future e.polls)) ∧
    (run_until_stalled p).1.shared.pending =
      (runLoop p.waker_thread (p.executing ++ p.shared.pending)).spawned := by
  obtain ⟨rest, hrest⟩ :=
    runLoop_events_pass_first p.waker_thread (p.executing ++ p.shared.pending)
  refine ⟨rfl, ?_, ?_, rfl⟩
  · intro ev hev
    exact runLoop_events_not_lock p.waker_thread (p.executing ++ p.shared.pending) ev hev
  · have h2 : (run_until_stalled p).2.filter Event.isPoll =
        (runPass p.waker_thread (p.executing ++ p.shared.pending)).events.filter
          Event.isPoll ++ rest.filter Event.isPoll := by
      show (Event.lockAcquire :: Event.lockRelease ::
        (runLoop p.waker_thread (p.executing ++ p.shared.pending)).events).filter
          Event.isPoll = _
      simp [hrest, List.filter_append, Event.isPoll]
    rw [h2, runPass_events_filter_poll]
    refine List.take_left' ?_
    simp

theorem claim_C1_witness :
    (run_until_stalled pool1).2.take 2 = [Event.lockAcquire, Event.lockRelease] :=
  (claim_C1_drain_unlock_then_poll pool1).1

/-- C2: within one `run_until_stalled` call, a pass polls every task of the
executing sequence exactly once, in order; a pass reports progress exactly
when some poll returned Ready; a pass without progress ends the loop at
once (one single pass, no compaction); and the number of passes is bounded
by the size of the executing set plus one, so the loop terminates after
finitely many passes regardless of the Pending/Ready answers. -/
theorem claim_C2_loop_terminates (tid : Nat) (l : List Entry) :
    ((runPass tid l).events.filter Event.isPoll =
      l.map (fun e => Event.poll e.id (e.future e.polls))) ∧
    ((runPass tid l).any = true ↔ ∃ e ∈ l, (e.future e.polls).isReady = true) ∧
    ((runPass tid l).any = false →
      runLoop tid l = ⟨(runPass tid l).entries, (runPass tid l).spawned, 1,
        (runPass tid l).events⟩) ∧
    (runLoop tid l).passes ≤ l.length + 1 := by
  refine ⟨runPass_events_filter_poll tid l, runPass_any_iff tid l, ?_,
    runLoop_passes_le tid l⟩
  intro hfalse
  exact runLoop_neg tid l (by simp [hfalse])

theorem claim_C2_witness :
    (runLoop 7 [idleTask, quickTask]).passes ≤ 3 :=
  (claim_C2_loop_terminates 7 [idleTask, quickTask]).2.2.2

/-- C10: `run_until_stalled` consumes the pending queue exactly once, at
entry, and never re-reads it: the pending queue at return is exactly the
sequence of reentrantly spawned tasks; every poll event of the call
concerns a task that was in executing ++ pending at entry; hence a task
spawned during the call's own polling, carrying a fresh id, is still in
the pending queue at return and received no poll attempt in that call. -/
theorem claim_C10_pending_read_once (p : Pool) :
    ((run_until_stalled p).1.shared.pending =
      (runLoop p.waker_thread (p.executing ++ p.shared.pending)).spawned) ∧
    (∀ i r, Event.poll i r ∈ (run_until_stalled p).2 →
      i ∈ (p.executing ++ p.shared.pending).map Entry.id) ∧
    (∀ e ∈ (runLoop p.waker_thread (p.executing ++ p.shared.pending)).spawned,
      e ∈ (run_until_stalled p).1.shared.pending ∧
      (e.id ∉ (p.executing ++ p.shared.pending).map Entry.id →
        ∀ r, Event.poll e.id r ∉ (run_until_stalled p).2)) := by
  have hpoll : ∀ i r, Event.poll i r ∈ (run_until_stalled p).2 →
      i ∈ (p.executing ++ p.shared.pending).map Entry.id := by
    intro i r hmem
    have hmem' : Event.poll i r ∈ Event.lockAcquire :: Event.lockRelease ::
        (runLoop p.waker_thread (p.executing ++ p.shared.pending)).events := hmem
    rcases List.mem_cons.mp hmem' with h | h
    · cases h
    rcases List.mem_cons.mp h with h' | h'
    · cases h'
    · exact runLoop_poll_mem _ i r _ h'
  refine ⟨rfl, hpoll, ?_⟩
  intro e he
  refine ⟨he, ?_⟩
  intro hfresh r hr
  exact hfresh (hpoll e.id r hr)

theorem claim_C10_witness :
    idleTask ∈ (run_until_stalled poolSpawn).1.shared.pending ∧
    (∀ r, Event.poll idleTask.id r ∉ (run_until_stalled poolSpawn).2) := by
  have hmem : idleTask ∈ (runLoop poolSpawn.waker_thread
      (poolSpawn.executing ++ poolSpawn.shared.pending)).spawned := by
    simp [poolSpawn, runLoop_pos, runLoop_neg, spawningTask, idleTask, pollEntry,
      PollResult.isReady, Entry.advance]
  have h := (claim_C10_pending_read_once poolSpawn).2.2 idleTask hmem
  exact ⟨h.1, h.2 (by decide)⟩

/-- The whole trace of a `run_until_stalled` call is silent for a task
after that task's Ready poll, provided the pool's task ids are distinct. -/
theorem run_silentAfterReady (p : Pool) (t : Nat)
    (hnodup : ((p.executing ++ p.shared.pending).map Entry.id).Nodup) :
    SilentAfterReady t (run_until_stalled p).2 := by
  show SilentAfterReady t ([Event.lockAcquire, Event.lockRelease] ++
    (runLoop p.waker_thread (p.executing ++ p.shared.pending)).events)
  refine silentAfterReady_append t _ _
    (silentAfterReady_of_not_mem t _ (by simp))
    (runLoop_silentAfterReady p.waker_thread t _ hnodup) ?_
  intro hmem
  exact absurd hmem (by simp)

/-- C5: in a pool whose task ids are distinct, once a task's poll has
returned Ready inside a `run_until_stalled` call, no later poll of that
task occurs in the same call and the task is absent from the executing set
at return; moreover a pool holding no task with that id (as is then the
case for every later call, the task being in neither executing nor
pending) never polls it at all. -/
theorem claim_C5_completed_never_polled_again (p : Pool) (t : Nat)
    (hnodup : ((p.executing ++ p.shared.pending).map Entry.id).Nodup) :
    (∀ u v, (run_until_stalled p).2 = u ++ v → Event.poll t .ready ∈ u →
      ∀ r, Event.poll t r ∉ v) ∧
    (Event.poll t .ready ∈ (run_until_stalled p).2 →
      t ∉ (run_until_stalled p).1.executing.map Entry.id) ∧
    (∀ q : Pool, t ∉ (q.executing ++ q.shared.pending).map Entry.id →
      ∀ r, Event.poll t r ∉ (run_until_stalled q).2) := by
  have hsil := run_silentAfterReady p t hnodup
  refine ⟨?_, ?_, ?_⟩
  · intro u v huv hmem r hr
    have hfalse := hsil u v huv hmem _ hr
    simp at hfalse
  · intro hready
    have hready' : Event.poll t .ready ∈
        (runLoop p.waker_thread (p.executing ++ p.shared.pending)).events := by
      have h0 : Event.poll t .ready ∈ Event.lockAcquire :: Event.lockRelease ::
          (runLoop p.waker_thread (p.executing ++ p.shared.pending)).events := hready
      rcases List.mem_cons.mp h0 with h | h
      · cases h
      rcases List.mem_cons.mp h with h' | h'
      · cases h'
      · exact h'
    intro hidmem
    exact runLoop_ready_removed p.waker_thread t _ hnodup hready' hidmem
  · intro q hq r hr
    have hr' : Event.poll t r ∈
        (runLoop q.waker_thread (q.executing ++ q.shared.pending)).events := by
      have h0 : Event.poll t r ∈ Event.lockAcquire :: Event.lockRelease ::
          (runLoop q.waker_thread (q.executing ++ q.shared.pending)).events := hr
      rcases List.mem_cons.mp h0 with h | h
      · cases h
      rcases List.mem_cons.mp h with h' | h'
      · cases h'
      · exact h'
    exact hq (runLoop_poll_mem _ t r _ hr')

theorem claim_C5_witness :
    ((pool1.executing ++ pool1.shared.pending).map Entry.id).Nodup ∧
    1 ∉ (run_until_stalled pool1).1.executing.map Entry.id := by
  have hnd : ((pool1.executing ++ pool1.shared.pending).map Entry.id).Nodup := by decide
  refine ⟨hnd, (claim_C5_completed_never_polled_again pool1 1 hnd).2.1 ?_⟩
  simp [pool1, run_until_stalled, runLoop_pos, runLoop_neg, idleTask, quickTask,
    pollEntry, PollResult.isReady, Entry.advance]

/-! ### The polls a single task receives within a call -/

theorem pollEntry_filter_taskPoll_self (tid : Nat) (x : Entry) :
    (pollEntry tid x).events.filter (fun ev => Event.ofTask x.id ev && ev.isPoll) =
      [Event.poll x.id (x.future x.polls)] := by
  have h1 : ((x.spawns x.polls).map (fun _ => Event.wake tid none)).filter
      (fun ev => Event.ofTask x.id ev && ev.isPoll) = [] := by
    refine List.filter_eq_nil_iff.mpr ?_
    intro a ha
    obtain ⟨y, -, h⟩ := List.mem_map.mp ha
    rw [← h]
    simp
  have h2 : ((if x.calls_waker x.polls then [Event.wake tid (some x.id)] else [])).filter
      (fun ev => Event.ofTask x.id ev && ev.isPoll) = [] := by
    refine List.filter_eq_nil_iff.mpr ?_
    intro a ha
    rcases Bool.eq_false_or_eq_true (x.calls_waker x.polls) with hw | hw <;>
      simp [hw] at ha
    subst ha
    simp [Event.isWake, Event.isPoll]
  rw [pollEntry_events, List.filter_append, List.filter_append, h1, h2]
  simp [Event.isPoll]

theorem pollEntry_filter_taskPoll_other (tid t : Nat) (y : Entry) (hne : y.id ≠ t) :
    (pollEntry tid y).events.filter (fun ev => Event.ofTask t ev && ev.isPoll) = [] := by
  refine List.filter_eq_nil_iff.mpr ?_
  intro a ha
  have h := pollEntry_events_ofTask_false tid t y hne a ha
  simp [h]

theorem runPass_filter_taskPoll_none (tid t : Nat) (l : List Entry)
    (h : t ∉ l.map Entry.id) :
    (runPass tid l).events.filter (fun ev => Event.ofTask t ev && ev.isPoll) = [] := by
  refine List.filter_eq_nil_iff.mpr ?_
  intro a ha
  have hf := runPass_events_ofTask_false tid t l h a ha
  simp [hf]

theorem runLoop_filter_taskPoll_none (tid t : Nat) (l : List Entry)
    (h : t ∉ l.map Entry.id) :
    (runLoop tid l).events.filter (fun ev => Event.ofTask t ev && ev.isPoll) = [] := by
  refine List.filter_eq_nil_iff.mpr ?_
  intro a ha
  have hf := runLoop_events_ofTask_false tid t l h a ha
  simp [hf]

theorem runPass_filter_taskPoll (tid : Nat) (l : List Entry)
    (hnodup : (l.map Entry.id).Nodup) (e : Entry) (he : e ∈ l) :
    (runPass tid l).events.filter (fun ev => Event.ofTask e.id ev && ev.isPoll) =
      [Event.poll e.id (e.future e.polls)] := by
  induction l with
  | nil => cases he
  | cons x xs ih =>
    rw [List.map_cons, List.nodup_cons] at hnodup
    obtain ⟨hni, hnd⟩ := hnodup
    rw [runPass_events_cons, List.filter_append]
    rcases List.mem_cons.mp he with rfl | he'
    · rw [pollEntry_filter_taskPoll_self tid e,
        runPass_filter_taskPoll_none tid e.id xs hni, List.append_nil]
    · have hxne : x.id ≠ e.id := by
        intro hxt
        apply hni
        rw [hxt]
        exact List.mem_map_of_mem Entry.id he'
      rw [pollEntry_filter_taskPoll_other tid e.id x hxne, ih hnd he',
        List.nil_append]

/-- C6: in a pool with distinct task ids, a task whose very first poll
completes it is present in the executing sequence at entry to the poll
loop and absent from the executing set at return of the same call; it is
polled exactly once in that call (the completing Ready poll), and no wake
on behalf of that task is generated after its completing poll. -/
theorem claim_C6_first_poll_completion (p : Pool) (e : Entry)
    (hnodup : ((p.executing ++ p.shared.pending).map Entry.id).Nodup)
    (hmem : e ∈ p.executing ++ p.shared.pending)
    (hpolls : e.polls = 0) (hready : e.future 0 = .ready) :
    e ∈ p.executing ++ p.shared.pending ∧
    e.id ∉ (run_until_stalled p).1.executing.map Entry.id ∧
    (run_until_stalled p).2.filter (fun ev => Event.ofTask e.id ev && ev.isPoll) =
      [Event.poll e.id .ready] ∧
    (∀ u v, (run_until_stalled p).2 = u ++ v → Event.poll e.id .ready ∈ u →
      ∀ tid, Event.wake tid (some e.id) ∉ v) := by
  have hres : e.future e.polls = .ready := by rw [hpolls]; exact hready
  have hpassready : Event.poll e.id .ready ∈
      (runPass p.waker_thread (p.executing ++ p.shared.pending)).events :=
    (poll_mem_runPass_events _ e.id .ready _).mpr ⟨e, hmem, rfl, hres.symm⟩
  have hany : (runPass p.waker_thread (p.executing ++ p.shared.pending)).any = true :=
    (runPass_any_iff _ _).mpr ⟨e, hmem, by rw [hres]; rfl⟩
  have hloopev := runLoop_events_pos p.waker_thread (p.executing ++ p.shared.pending) hany
  have hnotin := ready_not_in_filtered_ids p.waker_thread e.id
    (p.executing ++ p.shared.pending) hnodup hpassready
  have hloopready : Event.poll e.id .ready ∈
      (runLoop p.waker_thread (p.executing ++ p.shared.pending)).events := by
    rw [hloopev]
    exact List.mem_append_left _ hpassready
  refine ⟨hmem, ?_, ?_, ?_⟩
  · intro hidmem
    exact runLoop_ready_removed p.waker_thread e.id (p.executing ++ p.shared.pending)
      hnodup hloopready hidmem
  · have hhead : (run_until_stalled p).2.filter
        (fun ev => Event.ofTask e.id ev && ev.isPoll) =
        (runLoop p.waker_thread (p.executing ++ p.shared.pending)).events.filter
          (fun ev => Event.ofTask e.id ev && ev.isPoll) := by
      show (Event.lockAcquire :: Event.lockRelease ::
        (runLoop p.waker_thread (p.executing ++ p.shared.pending)).events).filter
          (fun ev => Event.ofTask e.id ev && ev.isPoll) = _
      simp [Event.ofTask, Event.isPoll]
    rw [hhead, hloopev, List.filter_append,
      runPass_filter_taskPoll p.waker_thread (p.executing ++ p.shared.pending) hnodup e hmem,
      runLoop_filter_taskPoll_none p.waker_thread e.id _ hnotin,
      List.append_nil, hres]
  · intro u v huv hmemu tid hw
    have hfalse := run_silentAfterReady p e.id hnodup u v huv hmemu _ hw
    simp at hfalse

theorem claim_C6_witness :
    quickTask ∈ pool1.executing ++ pool1.shared.pending ∧
    quickTask.id ∉ (run_until_stalled pool1).1.executing.map Entry.id ∧
    (run_until_stalled pool1).2.filter
        (fun ev => Event.ofTask quickTask.id ev && ev.isPoll) =
      [Event.poll quickTask.id .ready] := by
  have h := claim_C6_first_poll_completion pool1 quickTask (by decide)
    (by simp [pool1]) rfl rfl
  exact ⟨h.1, h.2.1, h.2.2.1⟩

end UiExec
